import Mathlib

/-!
Verification of the strategy allocation and fee-accounting logic of the
`stellar-ai-trading-automation` backend (the `/api/strategy/deposit`,
`/api/strategies/pause` and `/api/strategies/resume` handlers in the
simplified main application, `src/unnamed/part_001`).

Modelling conventions:

* JavaScript numbers are modelled as exact rationals (`ℚ`).  The handler's
  `Number((x).toFixed(8))` pattern is modelled by `round8`, rounding to 8
  decimal places half-away-from-zero, which is what `toFixed` does on the
  exact value of its argument (`toFixed` negates a negative argument, prints
  the absolute value rounding half-up, and re-attaches the sign).
* The non-deterministic `decideAllocation()` (it draws `Math.random()`) is
  modelled by passing the decision the procedure returned as an explicit
  argument to `deposit`; every theorem therefore quantifies over the decision.
* `new Date()` timestamps are modelled as natural numbers (`new Date(0)`,
  the epoch start, is `0`); the current time is an explicit argument.
* The three pieces of process-wide mutable state (`strategyStatus`,
  `investorStates`, `platformTotalFees`) are gathered into a `ServerState`
  record; a handler is a function `ServerState → ... → ServerState × outcome`.
* A JSON request body field that may be absent is an `Option`; the `amount`
  field may additionally hold a string, which the handler coerces with the
  JavaScript `Number()` conversion, modelled by `coerceAmount`.
-/

namespace Stellar

/-- Allocation state of an investor account
(`'STABLE' | 'INVESTED'`, part_001 line 18). -/
inductive Allocation where
  | STABLE
  | INVESTED
deriving DecidableEq

/-- Strategy status (`'ACTIVE' | 'PAUSED'`, part_001 line 14). -/
inductive StrategyStatus where
  | ACTIVE
  | PAUSED
deriving DecidableEq

/-- Per-investor record stored in the `investorStates` map
(part_001 lines 15–20). -/
structure InvestorAccount where
  strategyId : String
  balance : ℚ
  allocation : Allocation
  lastDecisionAt : ℕ
deriving DecidableEq

/-- The process-wide mutable state of the simplified server:
`strategyStatus` (line 14), `investorStates` (lines 15–20) and
`platformTotalFees` (line 21). -/
structure ServerState where
  strategyStatus : String → Option StrategyStatus
  investorStates : String → Option InvestorAccount
  platformTotalFees : ℚ

/-- State at process start: both maps empty, `platformTotalFees = 0`. -/
def initState : ServerState :=
  { strategyStatus := fun _ => none
    investorStates := fun _ => none
    platformTotalFees := 0 }

/-- A JavaScript number as far as the deposit handler can observe it: either a
finite value, or a non-finite one (`NaN`, `±Infinity`).  The handler tests
`Number.isFinite(amount)` before ever comparing `amount` with `0`, so the
three non-finite values are indistinguishable to it and are collapsed. -/
inductive JSNumber where
  | finite (val : ℚ)
  | notFinite
deriving DecidableEq

/-- Whether a `JSNumber` passes `Number.isFinite`. -/
def JSNumber.isFinite : JSNumber → Bool
  | .finite _ => true
  | .notFinite => false

/-- The rational value of a finite `JSNumber` (junk value `0` on `notFinite`;
the handler only reads it after `Number.isFinite` has succeeded). -/
def JSNumber.val : JSNumber → ℚ
  | .finite q => q
  | .notFinite => 0

/-- A JSON value that the request body's `amount` field can hold: a number or
a string (other JSON shapes would coerce to `NaN` and behave like a
non-finite number). -/
inductive JSValue where
  | num (v : JSNumber)
  | str (s : String)
deriving DecidableEq

/-- Fold a list of decimal digit characters into a natural number. -/
def digitsToNat (cs : List Char) : ℕ :=
  cs.foldl (fun a c => 10 * a + (c.toNat - 48)) 0

/-- Digit-level part of the JavaScript `Number(string)` conversion, kept in
`ℕ`/`Bool` so that it evaluates by `decide`.  Returns
`some (neg, scaled, fracLen)` where the parsed value is
`(-1 if neg) * scaled / 10 ^ fracLen`, or `none` when the string does not
parse as a decimal literal.  Recognised fragment: optional surrounding
whitespace, an optional sign, then `digits`, `digits.digits`, `digits.` or
`.digits`; the empty (or all-whitespace) string parses as `0`. -/
def parseDecimal (s : String) : Option (Bool × ℕ × ℕ) :=
  let cs := ((s.toList.dropWhile Char.isWhitespace).reverse.dropWhile
      Char.isWhitespace).reverse
  if cs.isEmpty then some (false, 0, 0)
  else
    let signBody : Bool × List Char :=
      match cs with
      | '-' :: r => (true, r)
      | '+' :: r => (false, r)
      | r => (false, r)
    let intPart := signBody.2.takeWhile Char.isDigit
    let rest := signBody.2.dropWhile Char.isDigit
    match rest with
    | [] =>
        if intPart.isEmpty then none
        else some (signBody.1, digitsToNat intPart, 0)
    | '.' :: r =>
        if r.all Char.isDigit && !(intPart.isEmpty && r.isEmpty) then
          some (signBody.1, digitsToNat intPart * 10 ^ r.length + digitsToNat r,
            r.length)
        else none
    | _ => none

/-- The JavaScript `Number(string)` conversion, on the fragment of string
syntax that `parseDecimal` recognises.  Strings outside this fragment (hex,
binary, exponent forms, `"Infinity"`) are mapped to `notFinite`, which the
handler rejects exactly as it rejects `NaN`. -/
def jsStringToNumber (s : String) : JSNumber :=
  match parseDecimal s with
  | none => .notFinite
  | some (neg, scaled, fracLen) =>
      .finite ((if neg then -1 else 1) * (scaled : ℚ) / 10 ^ fracLen)

/-- `Number((req.body && req.body.amount) ?? 0)` (part_001 line 180): an
absent field is replaced by `0` before the conversion; a number converts to
itself; a string is parsed. -/
def coerceAmount : Option JSValue → JSNumber
  | none => .finite 0
  | some (.num v) => v
  | some (.str s) => jsStringToNumber s

/-- JavaScript truthiness of a `string | undefined` value as used by the
guards `!investor`, `!strategyId`, `!id`: falsy iff absent or empty. -/
def strFalsy : Option String → Bool
  | none => true
  | some s => s == ""

/-- Default applied to the optional `asset` field
(`asset || 'XLM'`, part_001 line 226). -/
def assetOrDefault (a : Option String) : String :=
  if strFalsy a then "XLM" else a.getD ""

/-- The fee rate charged on an allocation switch
(`const feeRate = 0.005`, part_001 line 206). -/
def feeRate : ℚ := 5 / 1000

/-- `Number(x.toFixed(8))` on the exact value of `x`: round to 8 decimal
places, ties away from zero (`toFixed` prints the absolute value rounded
half-up and re-attaches the sign). -/
def round8 (q : ℚ) : ℚ :=
  if q < 0 then -((⌊-q * 10 ^ 8 + 1 / 2⌋ : ℚ) / 10 ^ 8)
  else (⌊q * 10 ^ 8 + 1 / 2⌋ : ℚ) / 10 ^ 8

/-- Request body of `POST /api/strategy/deposit` (part_001 lines 178–181).
Absent fields are `none`; the `amount` field may hold a number or a string. -/
structure DepositRequest where
  investor : Option String
  strategyId : Option String
  amount : Option JSValue
  asset : Option String
deriving DecidableEq

/-- The `data` record of a successful deposit response
(part_001 lines 223–233). -/
structure DepositResult where
  investor : String
  strategyId : String
  asset : String
  newBalance : ℚ
  allocation : Allocation
  feeCharged : ℚ
  platformTotalFees : ℚ
  simulated : Bool
  decidedAt : ℕ
deriving DecidableEq

/-- Outcome of a deposit request: HTTP 400 with `error: 'Validation failed'`,
or HTTP 200 with the success payload. -/
inductive DepositOutcome where
  | validationError
  | ok (r : DepositResult)
deriving DecidableEq

/-- The account record the deposit handler works on
(`investorStates.get(investor) || { strategyId, balance: 0, allocation:
'STABLE', lastDecisionAt: new Date(0) }`, part_001 lines 193–198).  The
lazily-created default carries the request's `strategyId`. -/
def currentOf (st : ServerState) (investor strategyId : String) :
    InvestorAccount :=
  (st.investorStates investor).getD
    { strategyId := strategyId, balance := 0, allocation := .STABLE
      lastDecisionAt := 0 }

/-- The part of the deposit handler that runs once validation has passed
(part_001 lines 192–235), with the extracted `investor`, `strategyId` and
coerced `amount` as plain arguments:

* `current.balance += amount` (line 199) is `balance1`;
* lines 205–213 charge the fee on an allocation switch, with every
  arithmetic result passed through `Number((...).toFixed(8))`, i.e.
  `round8`;
* lines 216–219 apply the decision, stamp the time, overwrite the account's
  `strategyId` and store the record;
* lines 221–235 build the success payload. -/
def applyDeposit (st : ServerState) (investor strategyId : String) (amount : ℚ)
    (asset : Option String) (decision : Allocation) (now : ℕ) :
    ServerState × DepositOutcome :=
  let current := currentOf st investor strategyId
  let balance1 := current.balance + amount
  let fee := round8 (balance1 * feeRate)
  let feeCharged := if current.allocation = decision then 0 else fee
  let balance2 :=
    if current.allocation = decision then balance1
    else round8 (balance1 - fee)
  let platform1 :=
    if current.allocation = decision then st.platformTotalFees
    else round8 (st.platformTotalFees + fee)
  let acct : InvestorAccount :=
    { strategyId := strategyId, balance := balance2, allocation := decision
      lastDecisionAt := now }
  ({ st with
      investorStates := fun k => if k = investor then some acct
        else st.investorStates k
      platformTotalFees := platform1 },
   .ok { investor := investor, strategyId := strategyId
         asset := assetOrDefault asset
         newBalance := balance2, allocation := decision
         feeCharged := feeCharged, platformTotalFees := platform1
         simulated := true, decidedAt := now })

/-- The `POST /api/strategy/deposit` handler (part_001 lines 176–244).

The decision that `decideAllocation()` (line 202) returned is the explicit
argument `decision`; the wall-clock time of `new Date()` (line 217) is the
explicit argument `now`.  Line 180 (`amount = Number((req.body &&
req.body.amount) ?? 0)`) is `coerceAmount req.amount`; lines 183–190 are the
validation guard, returning 400 with no state change; the rest of the
handler body is `applyDeposit`. -/
def deposit (st : ServerState) (req : DepositRequest) (decision : Allocation)
    (now : ℕ) : ServerState × DepositOutcome :=
  let amount := coerceAmount req.amount
  if strFalsy req.investor || strFalsy req.strategyId || !amount.isFinite
      || decide (amount.val ≤ 0) then
    (st, .validationError)
  else
    applyDeposit st (req.investor.getD "") (req.strategyId.getD "")
      amount.val req.asset decision now

/-- Outcome of the pause/resume handlers: HTTP 400 validation failure or the
success message. -/
inductive SimpleOutcome where
  | validationError
  | ok
deriving DecidableEq

/-- The `POST /api/strategies/pause` handler (part_001 lines 286–297):
validate `id`, then `strategyStatus.set(id, 'PAUSED')`. -/
def pauseStrategy (st : ServerState) (id : Option String) :
    ServerState × SimpleOutcome :=
  if strFalsy id then (st, .validationError)
  else
    ({ st with strategyStatus := fun k => if k = id.getD ""
        then some .PAUSED else st.strategyStatus k },
     .ok)

/-- The `POST /api/strategies/resume` handler (part_001 lines 299–310):
validate `id`, then `strategyStatus.set(id, 'ACTIVE')`. -/
def resumeStrategy (st : ServerState) (id : Option String) :
    ServerState × SimpleOutcome :=
  if strFalsy id then (st, .validationError)
  else
    ({ st with strategyStatus := fun k => if k = id.getD ""
        then some .ACTIVE else st.strategyStatus k },
     .ok)

/-- The status the server reports for a strategy id:
`strategyStatus.get(id) || 'ACTIVE'` (part_001 line 254). -/
def statusOf (st : ServerState) (id : String) : StrategyStatus :=
  (st.strategyStatus id).getD .ACTIVE

/-- One deposit request together with the nondeterministic inputs consumed
while handling it: the allocation the decision procedure returned and the
current time. -/
structure DepositStep where
  req : DepositRequest
  decision : Allocation
  now : ℕ

/-- Run a sequence of deposit requests through the server, collecting the
outcomes in order. -/
def runDeposits (st : ServerState) :
    List DepositStep → ServerState × List DepositOutcome
  | [] => (st, [])
  | step :: rest =>
      let first := deposit st step.req step.decision step.now
      let later := runDeposits first.1 rest
      (later.1, first.2 :: later.2)

/-- The balance the ledger currently records for investor `i` (`0` when no
record exists, matching the lazily-created account's initial balance). -/
def balanceOf (st : ServerState) (i : String) : ℚ :=
  ((st.investorStates i).map InvestorAccount.balance).getD 0

/-- The allocation the deposit handler compares the decision against for
investor `i`: the stored one, or `STABLE` for a not-yet-created account. -/
def allocOf (st : ServerState) (i : String) : Allocation :=
  ((st.investorStates i).map InvestorAccount.allocation).getD .STABLE

/-- The `feeCharged` value a deposit outcome reported (`0` for a validation
failure, which charges nothing). -/
def outcomeFee : DepositOutcome → ℚ
  | .validationError => 0
  | .ok r => r.feeCharged

/-- Sum of the `feeCharged` values of a list of outcomes. -/
def feesOf (outs : List DepositOutcome) : ℚ :=
  (outs.map outcomeFee).sum

/-- The (coerced) amount a deposit step carries. -/
def stepAmount (step : DepositStep) : ℚ :=
  (coerceAmount step.req.amount).val

/-- Sum of the amounts of a list of deposit steps. -/
def sumAmounts (steps : List DepositStep) : ℚ :=
  (steps.map stepAmount).sum

/-- A rational is an integer multiple of `10⁻⁸`, i.e. representable to the
configured 8-decimal-place precision.  Every `round8` output has this shape,
and on such values `round8` is the identity. -/
def Eights (q : ℚ) : Prop := ∃ k : ℤ, q * 10 ^ 8 = (k : ℚ)

/-- A deposit step that the validation guard accepts, addressed to investor
`i`: present non-empty `investor` equal to `i`, present non-empty
`strategyId`, and a coerced amount that is finite and strictly positive. -/
def ValidStepFor (i : String) (step : DepositStep) : Prop :=
  step.req.investor = some i ∧ i ≠ "" ∧
  (∃ s, step.req.strategyId = some s ∧ s ≠ "") ∧
  (coerceAmount step.req.amount).isFinite = true ∧ 0 < stepAmount step

/-- Every balance the ledger stores is non-negative. -/
def BalancesNonneg (st : ServerState) : Prop :=
  ∀ i acct, st.investorStates i = some acct → 0 ≤ acct.balance

lemma Eights.zero : Eights 0 := ⟨0, by norm_num⟩

lemma Eights.add {a b : ℚ} (ha : Eights a) (hb : Eights b) : Eights (a + b) := by
  obtain ⟨j, hj⟩ := ha
  obtain ⟨k, hk⟩ := hb
  exact ⟨j + k, by push_cast; linarith⟩

lemma Eights.sub {a b : ℚ} (ha : Eights a) (hb : Eights b) : Eights (a - b) := by
  obtain ⟨j, hj⟩ := ha
  obtain ⟨k, hk⟩ := hb
  exact ⟨j - k, by push_cast; linarith⟩

lemma eights_round8 (q : ℚ) : Eights (round8 q) := by
  unfold round8
  split
  · refine ⟨-⌊-q * 10 ^ 8 + 1 / 2⌋, ?_⟩
    push_cast
    field_simp
  · refine ⟨⌊q * 10 ^ 8 + 1 / 2⌋, ?_⟩
    field_simp

lemma round8_eq_of_eights {q : ℚ} (h : Eights q) : round8 q = q := by
  obtain ⟨k, hk⟩ := h
  have h8 : ((10 : ℚ) ^ 8) ≠ 0 := by norm_num
  have hhalf : ⌊(1 / 2 : ℚ)⌋ = 0 := by norm_num
  unfold round8
  split
  · have hk' : -q * 10 ^ 8 = ((-k : ℤ) : ℚ) := by push_cast; linarith
    rw [hk', Int.floor_int_add, hhalf, add_zero]
    push_cast
    rw [neg_div, neg_neg, div_eq_iff h8]
    exact hk.symm
  · rw [hk, Int.floor_int_add, hhalf, add_zero, div_eq_iff h8]
    exact hk.symm

lemma round8_nonneg {q : ℚ} (h : 0 ≤ q) : 0 ≤ round8 q := by
  unfold round8
  rw [if_neg (not_lt.mpr h)]
  refine div_nonneg ?_ (by norm_num)
  exact_mod_cast Int.floor_nonneg.mpr (by linarith)

/-- The fee the handler rounds up can never exceed the balance it is a
0.5% cut of: for tiny balances the rounded fee is `0`, for balances of at
least `1 / 199000000` the slack of half an ulp is absorbed by the other
99.5%. -/
lemma round8_fee_le {b : ℚ} (hb : 0 ≤ b) : round8 (b * feeRate) ≤ b := by
  have h1 : (0 : ℚ) ≤ b * feeRate := by
    unfold feeRate; positivity
  unfold round8
  rw [if_neg (not_lt.mpr h1)]
  rw [div_le_iff₀ (by norm_num : (0 : ℚ) < 10 ^ 8)]
  have he : b * feeRate * 10 ^ 8 + 1 / 2 = b * 500000 + 1 / 2 := by
    unfold feeRate; ring
  rw [he]
  rcases le_or_lt (1 / 199000000 : ℚ) b with hc | hc
  · have hfl := Int.floor_le (b * 500000 + 1 / 2 : ℚ)
    linarith
  · have hlt : (b * 500000 + 1 / 2 : ℚ) < ((1 : ℤ) : ℚ) := by
      push_cast; linarith
    have hfl : ⌊(b * 500000 + 1 / 2 : ℚ)⌋ < 1 := Int.floor_lt.mpr hlt
    have hfl' : ((⌊(b * 500000 + 1 / 2 : ℚ)⌋ : ℤ) : ℚ) ≤ 0 := by
      exact_mod_cast Int.lt_add_one_iff.mp hfl
    linarith

lemma currentOf_balance (st : ServerState) (i s : String) :
    (currentOf st i s).balance = balanceOf st i := by
  unfold currentOf balanceOf
  cases st.investorStates i <;> rfl

lemma currentOf_alloc (st : ServerState) (i s : String) :
    (currentOf st i s).allocation = allocOf st i := by
  unfold currentOf allocOf
  cases st.investorStates i <;> rfl

/-- A deposit request that fails the validation guard returns the 400
response and leaves the state untouched. -/
lemma deposit_invalid (st : ServerState) (req : DepositRequest)
    (d : Allocation) (now : ℕ)
    (h : (strFalsy req.investor || strFalsy req.strategyId
      || !(coerceAmount req.amount).isFinite
      || decide ((coerceAmount req.amount).val ≤ 0)) = true) :
    deposit st req d now = (st, .validationError) := by
  unfold deposit
  rw [if_pos h]

/-- A deposit request that passes the validation guard runs the
post-validation core on the extracted fields. -/
lemma deposit_valid (st : ServerState) (req : DepositRequest) (i s : String)
    (q : ℚ) (d : Allocation) (now : ℕ)
    (hinv : req.investor = some i) (hi : i ≠ "")
    (hstr : req.strategyId = some s) (hs : s ≠ "")
    (hamt : coerceAmount req.amount = .finite q) (hq : 0 < q) :
    deposit st req d now = applyDeposit st i s q req.asset d now := by
  unfold deposit
  rw [hinv, hstr, hamt]
  simp [strFalsy, JSNumber.isFinite, JSNumber.val, hi, hs, not_le.mpr hq]

/-- The post-validation core, when the decision matches the current
allocation: no fee, the deposit is simply added. -/
lemma applyDeposit_same (st : ServerState) (i s : String) (q : ℚ)
    (a : Option String) (d : Allocation) (now : ℕ)
    (h : (currentOf st i s).allocation = d) :
    applyDeposit st i s q a d now =
      ({ st with investorStates := fun k =>
          if k = i then some ⟨s, (currentOf st i s).balance + q, d, now⟩
          else st.investorStates k },
       .ok ⟨i, s, assetOrDefault a, (currentOf st i s).balance + q, d, 0,
         st.platformTotalFees, true, now⟩) := by
  unfold applyDeposit
  simp only [h, if_pos rfl, if_true]

/-- The post-validation core, when the decision differs from the current
allocation: a 0.5% fee of the post-deposit balance is rounded, subtracted,
and added to the platform accumulator. -/
lemma applyDeposit_switch (st : ServerState) (i s : String) (q : ℚ)
    (a : Option String) (d : Allocation) (now : ℕ)
    (h : (currentOf st i s).allocation ≠ d) :
    applyDeposit st i s q a d now =
      ({ st with
          investorStates := fun k =>
            if k = i then
              some ⟨s, round8 ((currentOf st i s).balance + q
                - round8 (((currentOf st i s).balance + q) * feeRate)), d, now⟩
            else st.investorStates k
          platformTotalFees := round8 (st.platformTotalFees
            + round8 (((currentOf st i s).balance + q) * feeRate)) },
       .ok ⟨i, s, assetOrDefault a,
         round8 ((currentOf st i s).balance + q
           - round8 (((currentOf st i s).balance + q) * feeRate)),
         d,
         round8 (((currentOf st i s).balance + q) * feeRate),
         round8 (st.platformTotalFees
           + round8 (((currentOf st i s).balance + q) * feeRate)),
         true, now⟩) := by
  unfold applyDeposit
  simp only [h, if_neg h, if_false]

lemma eq_finite_of_isFinite {v : JSNumber} (h : v.isFinite = true) :
    v = .finite v.val := by
  cases v
  · rfl
  · simp [JSNumber.isFinite] at h

/-- Every run of the deposit handler either rejects the request unchanged or
runs the post-validation core on the extracted fields. -/
lemma deposit_cases (st : ServerState) (req : DepositRequest) (d : Allocation)
    (now : ℕ) :
    deposit st req d now = (st, .validationError) ∨
    ∃ i s, req.investor = some i ∧ i ≠ "" ∧ req.strategyId = some s ∧ s ≠ "" ∧
      0 < (coerceAmount req.amount).val ∧
      deposit st req d now
        = applyDeposit st i s (coerceAmount req.amount).val req.asset d now := by
  by_cases h : (strFalsy req.investor || strFalsy req.strategyId
      || !(coerceAmount req.amount).isFinite
      || decide ((coerceAmount req.amount).val ≤ 0)) = true
  · exact Or.inl (deposit_invalid st req d now h)
  · right
    rw [Bool.not_eq_true] at h
    simp only [Bool.or_eq_false_iff] at h
    obtain ⟨⟨⟨h1, h2⟩, h3⟩, h4⟩ := h
    rw [Bool.not_eq_false'] at h3
    have hq : 0 < (coerceAmount req.amount).val :=
      lt_of_not_le (of_decide_eq_false h4)
    match hinv : req.investor with
    | none => rw [hinv] at h1; exact absurd h1 (by simp [strFalsy])
    | some i =>
      match hstr : req.strategyId with
      | none => rw [hstr] at h2; exact absurd h2 (by simp [strFalsy])
      | some s =>
        rw [hinv] at h1
        rw [hstr] at h2
        have hi : i ≠ "" := by
          simpa [strFalsy] using h1
        have hs : s ≠ "" := by
          simpa [strFalsy] using h2
        exact ⟨i, s, rfl, hi, rfl, hs, hq,
          deposit_valid st req i s _ d now hinv hi hstr hs
            (eq_finite_of_isFinite h3) hq⟩

lemma balanceOf_nonneg {st : ServerState} (h : BalancesNonneg st)
    (i : String) : 0 ≤ balanceOf st i := by
  unfold balanceOf
  cases hx : st.investorStates i with
  | none => simp
  | some acct => simpa using h i acct hx

lemma currentOf_balance_nonneg {st : ServerState} (h : BalancesNonneg st)
    (i s : String) : 0 ≤ (currentOf st i s).balance := by
  rw [currentOf_balance]
  exact balanceOf_nonneg h i

/-- A single deposit preserves non-negative balances and 8-decimal-precision
of the platform counter, increases the counter by exactly the reported
`feeCharged`, and that fee is non-negative. -/
lemma deposit_platform (st : ServerState) (req : DepositRequest)
    (d : Allocation) (now : ℕ)
    (hbal : BalancesNonneg st) (hpf : Eights st.platformTotalFees) :
    BalancesNonneg (deposit st req d now).1 ∧
    Eights (deposit st req d now).1.platformTotalFees ∧
    (deposit st req d now).1.platformTotalFees
      = st.platformTotalFees + outcomeFee (deposit st req d now).2 ∧
    0 ≤ outcomeFee (deposit st req d now).2 := by
  rcases deposit_cases st req d now with h | ⟨i, s, _, _, _, _, hq, h⟩
  · rw [h]
    exact ⟨hbal, hpf, by simp [outcomeFee], le_refl 0⟩
  · rw [h]
    have hb0 : 0 ≤ (currentOf st i s).balance :=
      currentOf_balance_nonneg hbal i s
    have hb1 : 0 ≤ (currentOf st i s).balance + (coerceAmount req.amount).val :=
      by linarith
    by_cases hsw : (currentOf st i s).allocation = d
    · rw [applyDeposit_same st i s _ req.asset d now hsw]
      refine ⟨?_, hpf, by simp [outcomeFee], le_refl 0⟩
      intro j acct hj
      simp only at hj
      by_cases hji : j = i
      · rw [if_pos hji] at hj
        cases hj
        exact hb1
      · rw [if_neg hji] at hj
        exact hbal j acct hj
    · rw [applyDeposit_switch st i s _ req.asset d now hsw]
      have hfee0 : 0 ≤ round8 (((currentOf st i s).balance
          + (coerceAmount req.amount).val) * feeRate) := by
        refine round8_nonneg ?_
        unfold feeRate
        positivity
      have hfee8 : Eights (round8 (((currentOf st i s).balance
          + (coerceAmount req.amount).val) * feeRate)) := eights_round8 _
      refine ⟨?_, eights_round8 _, ?_, hfee0⟩
      · intro j acct hj
        simp only at hj
        by_cases hji : j = i
        · rw [if_pos hji] at hj
          cases hj
          refine round8_nonneg ?_
          have := round8_fee_le hb1 (b := (currentOf st i s).balance
            + (coerceAmount req.amount).val)
          linarith
        · rw [if_neg hji] at hj
          exact hbal j acct hj
      · simp only [outcomeFee]
        exact round8_eq_of_eights (hpf.add hfee8)

/-- Running any request sequence from a well-formed state keeps the state
well-formed, adds exactly the reported fees to the platform counter, and
never decreases it. -/
lemma runDeposits_platform (steps : List DepositStep) (st : ServerState)
    (hbal : BalancesNonneg st) (hpf : Eights st.platformTotalFees) :
    BalancesNonneg (runDeposits st steps).1 ∧
    Eights (runDeposits st steps).1.platformTotalFees ∧
    (runDeposits st steps).1.platformTotalFees
      = st.platformTotalFees + feesOf (runDeposits st steps).2 ∧
    st.platformTotalFees ≤ (runDeposits st steps).1.platformTotalFees := by
  induction steps generalizing st with
  | nil => exact ⟨hbal, hpf, by simp [runDeposits, feesOf], le_refl _⟩
  | cons step rest ih =>
    obtain ⟨hbal1, hpf1, heq1, hge1⟩ :=
      deposit_platform st step.req step.decision step.now hbal hpf
    obtain ⟨hbal2, hpf2, heq2, hge2⟩ :=
      ih (deposit st step.req step.decision step.now).1 hbal1 hpf1
    simp only [runDeposits]
    refine ⟨hbal2, hpf2, ?_, ?_⟩
    · simp only [feesOf, List.map_cons, List.sum_cons]
      rw [heq2, heq1]
      unfold feesOf
      ring
    · calc st.platformTotalFees
          ≤ (deposit st step.req step.decision step.now).1.platformTotalFees := by
            rw [heq1]; linarith
        _ ≤ _ := hge2

/-- Running a concatenated sequence is running the two halves in order. -/
lemma runDeposits_append (st : ServerState) (l1 l2 : List DepositStep) :
    runDeposits st (l1 ++ l2)
      = ((runDeposits (runDeposits st l1).1 l2).1,
         (runDeposits st l1).2 ++ (runDeposits (runDeposits st l1).1 l2).2) := by
  induction l1 generalizing st with
  | nil => simp [runDeposits]
  | cons step rest ih => simp [runDeposits, ih]

lemma initState_balances : BalancesNonneg initState := by
  intro i acct h
  simp [initState] at h

/-- Conservation along a run: as long as the investor's stored balance is an
integer multiple of `10⁻⁸` and every request is a valid deposit for that
investor with an amount at 8-decimal precision, the stored balance moves by
exactly the deposits minus the reported fees. -/
lemma runDeposits_balance (steps : List DepositStep) (st : ServerState)
    (i : String) (hb : Eights (balanceOf st i))
    (hv : ∀ step ∈ steps, ValidStepFor i step ∧ Eights (stepAmount step)) :
    balanceOf (runDeposits st steps).1 i
      = balanceOf st i + sumAmounts steps - feesOf (runDeposits st steps).2 := by
  induction steps generalizing st with
  | nil => simp [runDeposits, sumAmounts, feesOf]
  | cons step rest ih =>
    obtain ⟨⟨hinv, hi, ⟨s, hstr, hs⟩, hfin, hq⟩, h8⟩ :=
      hv step (List.mem_cons_self step rest)
    have hdep := deposit_valid st step.req i s (stepAmount step) step.decision
      step.now hinv hi hstr hs (eq_finite_of_isFinite hfin) hq
    have hcb := currentOf_balance st i s
    simp only [runDeposits]
    by_cases hsw : (currentOf st i s).allocation = step.decision
    · rw [hdep, applyDeposit_same st i s _ step.req.asset step.decision
        step.now hsw]
      have hbal1 : balanceOf
          ({ st with investorStates := fun k =>
              if k = i then some ⟨s, (currentOf st i s).balance
                + stepAmount step, step.decision, step.now⟩
              else st.investorStates k }) i
          = balanceOf st i + stepAmount step := by
        simp [balanceOf, hcb]
      have ih' := ih _ (by rw [hbal1]; exact hb.add h8)
        (fun step' h' => hv step' (List.mem_cons_of_mem step h'))
      rw [ih', hbal1]
      simp only [feesOf, sumAmounts, List.map_cons, List.sum_cons, outcomeFee]
      ring
    · rw [hdep, applyDeposit_switch st i s _ step.req.asset step.decision
        step.now hsw]
      have hfee8 : Eights (round8 (((currentOf st i s).balance
          + stepAmount step) * feeRate)) := eights_round8 _
      have hb2 : round8 ((currentOf st i s).balance + stepAmount step
            - round8 (((currentOf st i s).balance + stepAmount step) * feeRate))
          = (currentOf st i s).balance + stepAmount step
            - round8 (((currentOf st i s).balance + stepAmount step) * feeRate) := by
        refine round8_eq_of_eights ?_
        refine Eights.sub ?_ hfee8
        rw [hcb]
        exact hb.add h8
      have hbal1 : balanceOf
          ({ st with
              investorStates := fun k =>
                if k = i then some ⟨s, round8 ((currentOf st i s).balance
                  + stepAmount step
                  - round8 (((currentOf st i s).balance + stepAmount step)
                    * feeRate)), step.decision, step.now⟩
                else st.investorStates k,
              platformTotalFees := round8 (st.platformTotalFees
                + round8 (((currentOf st i s).balance + stepAmount step)
                  * feeRate)) }) i
          = balanceOf st i + stepAmount step
            - round8 ((balanceOf st i + stepAmount step) * feeRate) := by
        have : balanceOf st i = (currentOf st i s).balance := hcb.symm
        rw [this]
        simp only [balanceOf]
        rw [if_true]
        exact hb2
      have ih' := ih _ (by rw [hbal1]; exact (hb.add h8).sub (eights_round8 _))
        (fun step' h' => hv step' (List.mem_cons_of_mem step h'))
      rw [ih', hbal1]
      simp only [feesOf, sumAmounts, List.map_cons, List.sum_cons, outcomeFee]
      rw [hcb]
      ring

/-- C2.  Fee only on switch: for every valid deposit, `feeCharged` is exactly
`0` when the decision procedure returns the allocation the account currently
has, and exactly `round8(postDepositBalance * 0.005)` when it differs, where
`postDepositBalance` is the balance after adding the deposit amount and
before the fee is subtracted. -/
theorem fee_only_on_switch (st : ServerState) (req : DepositRequest)
    (i s : String) (q : ℚ) (d : Allocation) (now : ℕ)
    (hinv : req.investor = some i) (hi : i ≠ "")
    (hstr : req.strategyId = some s) (hs : s ≠ "")
    (hamt : coerceAmount req.amount = .finite q) (hq : 0 < q) :
    ∃ r, (deposit st req d now).2 = .ok r ∧
      (allocOf st i = d → r.feeCharged = 0) ∧
      (allocOf st i ≠ d → r.feeCharged
        = round8 ((balanceOf st i + q) * feeRate)) := by
  rw [deposit_valid st req i s q d now hinv hi hstr hs hamt hq]
  have hca := currentOf_alloc st i s
  have hcb := currentOf_balance st i s
  by_cases hsw : (currentOf st i s).allocation = d
  · rw [applyDeposit_same st i s q req.asset d now hsw]
    rw [hca] at hsw
    exact ⟨_, rfl, fun _ => rfl, fun hne => absurd hsw hne⟩
  · rw [applyDeposit_switch st i s q req.asset d now hsw]
    rw [hcb]
    rw [hca] at hsw
    exact ⟨_, rfl, fun hsame => absurd hsame hsw, fun _ => rfl⟩

/-- Witness for C2: a 1000 deposit for a fresh investor with the decision
forced to `INVESTED`. -/
theorem fee_only_on_switch_witness :
    ∃ r, (deposit initState
        ⟨some "inv1", some "s1", some (.num (.finite 1000)), none⟩
        .INVESTED 1).2 = .ok r ∧
      (allocOf initState "inv1" = .INVESTED → r.feeCharged = 0) ∧
      (allocOf initState "inv1" ≠ .INVESTED → r.feeCharged
        = round8 ((balanceOf initState "inv1" + 1000) * feeRate)) :=
  fee_only_on_switch initState
    ⟨some "inv1", some "s1", some (.num (.finite 1000)), none⟩
    "inv1" "s1" 1000 .INVESTED 1 rfl (by decide) rfl (by decide) rfl
    (by norm_num)

/-- C3.  Validation gating: a deposit request with missing or empty
`investor`, missing or empty `strategyId`, or a (coerced) amount that is not
a finite number strictly greater than zero, returns the validation error and
leaves the entire server state — in particular the investor's account and
the platform fee accumulator — unchanged. -/
theorem validation_gating (st : ServerState) (req : DepositRequest)
    (d : Allocation) (now : ℕ)
    (h : strFalsy req.investor = true ∨ strFalsy req.strategyId = true ∨
      (coerceAmount req.amount).isFinite = false ∨
      (coerceAmount req.amount).val ≤ 0) :
    deposit st req d now = (st, .validationError) := by
  refine deposit_invalid st req d now ?_
  rcases h with h | h | h | h
  · simp [h]
  · simp [h]
  · simp [h]
  · simp [h]

/-- Witness for C3: an empty `investor` field is rejected with no state
change. -/
theorem validation_gating_witness :
    deposit initState
        ⟨some "", some "s1", some (.num (.finite 100)), none⟩ .STABLE 0
      = (initState, .validationError) :=
  validation_gating initState
    ⟨some "", some "s1", some (.num (.finite 100)), none⟩ .STABLE 0
    (Or.inl (by decide))

/-- C4.  Non-negativity: for every valid deposit on an account whose stored
balance is non-negative, the returned `newBalance` is non-negative, and the
fee charged never exceeds the post-deposit balance. -/
theorem deposit_newBalance_nonneg (st : ServerState) (req : DepositRequest)
    (i s : String) (q : ℚ) (d : Allocation) (now : ℕ)
    (hinv : req.investor = some i) (hi : i ≠ "")
    (hstr : req.strategyId = some s) (hs : s ≠ "")
    (hamt : coerceAmount req.amount = .finite q) (hq : 0 < q)
    (hb : 0 ≤ balanceOf st i) :
    ∃ r, (deposit st req d now).2 = .ok r ∧ 0 ≤ r.newBalance ∧
      r.feeCharged ≤ balanceOf st i + q := by
  rw [deposit_valid st req i s q d now hinv hi hstr hs hamt hq]
  have hcb := currentOf_balance st i s
  have hb1 : 0 ≤ (currentOf st i s).balance + q := by rw [hcb]; linarith
  by_cases hsw : (currentOf st i s).allocation = d
  · rw [applyDeposit_same st i s q req.asset d now hsw]
    refine ⟨_, rfl, ?_, ?_⟩
    · rw [hcb]
      show (0 : ℚ) ≤ balanceOf st i + q
      linarith
    · rw [hcb]
      show (0 : ℚ) ≤ balanceOf st i + q
      linarith
  · rw [applyDeposit_switch st i s q req.asset d now hsw]
    refine ⟨_, rfl, ?_, ?_⟩
    · refine round8_nonneg ?_
      have hfle := round8_fee_le hb1
      linarith
    · have hfle := round8_fee_le hb1
      rw [hcb] at hfle
      rw [hcb]
      exact hfle

/-- Witness for C4: depositing 1000 into a fresh account with a switching
decision. -/
theorem deposit_newBalance_nonneg_witness :
    ∃ r, (deposit initState
        ⟨some "inv1", some "s1", some (.num (.finite 1000)), none⟩
        .INVESTED 1).2 = .ok r ∧ 0 ≤ r.newBalance ∧
      r.feeCharged ≤ balanceOf initState "inv1" + 1000 :=
  deposit_newBalance_nonneg initState
    ⟨some "inv1", some "s1", some (.num (.finite 1000)), none⟩
    "inv1" "s1" 1000 .INVESTED 1 rfl (by decide) rfl (by decide) rfl
    (by norm_num) (by norm_num [balanceOf, initState])

/-- C5.  Platform accumulator: starting from process start, after any
sequence of deposit requests (from any investors, valid or not) the platform
total-fees counter equals the sum of all `feeCharged` values returned so
far, and it is monotonically non-decreasing along any extension of the
sequence. -/
theorem platform_fee_accumulator (l1 l2 : List DepositStep) :
    (runDeposits initState l1).1.platformTotalFees
      = feesOf (runDeposits initState l1).2 ∧
    (runDeposits initState l1).1.platformTotalFees
      ≤ (runDeposits initState (l1 ++ l2)).1.platformTotalFees := by
  obtain ⟨hbal1, hpf1, heq1, _⟩ := runDeposits_platform l1 initState
    initState_balances ⟨0, by norm_num [initState]⟩
  constructor
  · rw [heq1]
    norm_num [initState]
  · rw [runDeposits_append]
    obtain ⟨_, _, _, hge2⟩ := runDeposits_platform l2
      (runDeposits initState l1).1 hbal1 hpf1
    exact hge2

/-- Witness for C5: one valid deposit, then one more from a second
investor. -/
theorem platform_fee_accumulator_witness :
    (runDeposits initState
        [⟨⟨some "inv1", some "s1", some (.num (.finite 1000)), none⟩,
          .INVESTED, 1⟩]).1.platformTotalFees
      = feesOf (runDeposits initState
          [⟨⟨some "inv1", some "s1", some (.num (.finite 1000)), none⟩,
            .INVESTED, 1⟩]).2 ∧
    (runDeposits initState
        [⟨⟨some "inv1", some "s1", some (.num (.finite 1000)), none⟩,
          .INVESTED, 1⟩]).1.platformTotalFees
      ≤ (runDeposits initState
          ([⟨⟨some "inv1", some "s1", some (.num (.finite 1000)), none⟩,
            .INVESTED, 1⟩]
           ++ [⟨⟨some "inv2", some "s1", some (.num (.finite 200)), none⟩,
            .INVESTED, 2⟩])).1.platformTotalFees :=
  platform_fee_accumulator
    [⟨⟨some "inv1", some "s1", some (.num (.finite 1000)), none⟩,
      .INVESTED, 1⟩]
    [⟨⟨some "inv2", some "s1", some (.num (.finite 200)), none⟩,
      .INVESTED, 2⟩]

/-- C1 (counterexample).  Balance conservation fails for valid deposits
whose amounts are below the 8-decimal-place precision.  Two deposits of
`4·10⁻⁹` each, the first with a switching decision (its rounding zeroes the
stored balance) and the second with a non-switching one (added without
rounding), end with a stored balance of `4·10⁻⁹` while deposits minus fees
is `8·10⁻⁹` — and the two sides differ even after rounding both to 8
decimal places (`0` versus `10⁻⁸`). -/
theorem balance_conservation_counterexample :
    ¬ (balanceOf (runDeposits initState
          [⟨⟨some "inv1", some "s1", some (.num (.finite (4 / 10 ^ 9))),
            none⟩, .INVESTED, 5⟩,
           ⟨⟨some "inv1", some "s1", some (.num (.finite (4 / 10 ^ 9))),
            none⟩, .INVESTED, 6⟩]).1 "inv1"
        = sumAmounts
            [⟨⟨some "inv1", some "s1", some (.num (.finite (4 / 10 ^ 9))),
              none⟩, .INVESTED, 5⟩,
             ⟨⟨some "inv1", some "s1", some (.num (.finite (4 / 10 ^ 9))),
              none⟩, .INVESTED, 6⟩]
          - feesOf (runDeposits initState
              [⟨⟨some "inv1", some "s1", some (.num (.finite (4 / 10 ^ 9))),
                none⟩, .INVESTED, 5⟩,
               ⟨⟨some "inv1", some "s1", some (.num (.finite (4 / 10 ^ 9))),
                none⟩, .INVESTED, 6⟩]).2)
      ∧
    ¬ (round8 (balanceOf (runDeposits initState
          [⟨⟨some "inv1", some "s1", some (.num (.finite (4 / 10 ^ 9))),
            none⟩, .INVESTED, 5⟩,
           ⟨⟨some "inv1", some "s1", some (.num (.finite (4 / 10 ^ 9))),
            none⟩, .INVESTED, 6⟩]).1 "inv1")
        = round8 (sumAmounts
            [⟨⟨some "inv1", some "s1", some (.num (.finite (4 / 10 ^ 9))),
              none⟩, .INVESTED, 5⟩,
             ⟨⟨some "inv1", some "s1", some (.num (.finite (4 / 10 ^ 9))),
              none⟩, .INVESTED, 6⟩]
          - feesOf (runDeposits initState
              [⟨⟨some "inv1", some "s1", some (.num (.finite (4 / 10 ^ 9))),
                none⟩, .INVESTED, 5⟩,
               ⟨⟨some "inv1", some "s1", some (.num (.finite (4 / 10 ^ 9))),
                none⟩, .INVESTED, 6⟩]).2)) := by
  have hcb : (currentOf initState "inv1" "s1").balance = 0 := rfl
  have hca : (currentOf initState "inv1" "s1").allocation = .STABLE := rfl
  have h1 := deposit_valid initState
    ⟨some "inv1", some "s1", some (.num (.finite (4 / 10 ^ 9))), none⟩
    "inv1" "s1" (4 / 10 ^ 9) .INVESTED 5 rfl (by decide) rfl (by decide) rfl
    (by norm_num)
  rw [applyDeposit_switch initState "inv1" "s1" (4 / 10 ^ 9) _ .INVESTED 5
    (by rw [hca]; decide), hcb] at h1
  have hfee : round8 ((0 + 4 / 10 ^ 9) * feeRate) = 0 := by
    norm_num [round8, feeRate]
  rw [hfee] at h1
  have hb2 : round8 (0 + 4 / 10 ^ 9 - 0) = 0 := by
    norm_num [round8]
  rw [hb2] at h1
  have hpf0 : initState.platformTotalFees = 0 := rfl
  rw [hpf0] at h1
  have hpf1 : round8 ((0 : ℚ) + 0) = 0 := by
    norm_num [round8]
  rw [hpf1] at h1
  have h2 := deposit_valid
    ({ initState with
        investorStates := (fun k => if k = "inv1"
          then some ⟨"s1", 0, .INVESTED, 5⟩ else initState.investorStates k),
        platformTotalFees := 0 })
    ⟨some "inv1", some "s1", some (.num (.finite (4 / 10 ^ 9))), none⟩
    "inv1" "s1" (4 / 10 ^ 9) .INVESTED 6 rfl (by decide) rfl (by decide) rfl
    (by norm_num)
  have hca1 : (currentOf
      ({ initState with
          investorStates := (fun k => if k = "inv1"
            then some ⟨"s1", 0, .INVESTED, 5⟩
            else initState.investorStates k),
          platformTotalFees := 0 }) "inv1" "s1").allocation = .INVESTED := rfl
  have hcb1 : (currentOf
      ({ initState with
          investorStates := (fun k => if k = "inv1"
            then some ⟨"s1", 0, .INVESTED, 5⟩
            else initState.investorStates k),
          platformTotalFees := 0 }) "inv1" "s1").balance = 0 := rfl
  rw [applyDeposit_same _ "inv1" "s1" (4 / 10 ^ 9) _ .INVESTED 6 hca1, hcb1]
    at h2
  simp only [runDeposits, sumAmounts, feesOf, List.map_cons, List.map_nil,
    List.sum_cons, List.sum_nil]
  rw [h1]
  simp only []
  rw [h2]
  simp only [balanceOf, outcomeFee, stepAmount, coerceAmount, JSNumber.val]
  norm_num [round8]

/-- C1 (amended).  Balance conservation at the configured precision: for
every sequence of valid deposits to a single fresh investor whose amounts
are integer multiples of `10⁻⁸`, the investor's final stored balanceequals
the sum of the deposited amounts minus the sum of the `feeCharged` values
returned. -/
theorem balance_conservation_eights (st : ServerState) (i : String)
    (steps : List DepositStep) (h0 : st.investorStates i = none)
    (hv : ∀ step ∈ steps, ValidStepFor i step ∧ Eights (stepAmount step)) :
    balanceOf (runDeposits st steps).1 i
      = sumAmounts steps - feesOf (runDeposits st steps).2 := by
  have hb0 : balanceOf st i = 0 := by simp [balanceOf, h0]
  have hrun := runDeposits_balance steps st i (by rw [hb0]; exact Eights.zero)
    hv
  rw [hb0] at hrun
  linarith

/-- Witness for C1 (amended): deposits of 1000 then 500 to a fresh investor,
both with the decision forced to `INVESTED`. -/
theorem balance_conservation_eights_witness :
    balanceOf (runDeposits initState
        [⟨⟨some "inv1", some "s1", some (.num (.finite 1000)), none⟩,
          .INVESTED, 1⟩,
         ⟨⟨some "inv1", some "s1", some (.num (.finite 500)), none⟩,
          .INVESTED, 2⟩]).1 "inv1"
      = sumAmounts
          [⟨⟨some "inv1", some "s1", some (.num (.finite 1000)), none⟩,
            .INVESTED, 1⟩,
           ⟨⟨some "inv1", some "s1", some (.num (.finite 500)), none⟩,
            .INVESTED, 2⟩]
        - feesOf (runDeposits initState
            [⟨⟨some "inv1", some "s1", some (.num (.finite 1000)), none⟩,
              .INVESTED, 1⟩,
             ⟨⟨some "inv1", some "s1", some (.num (.finite 500)), none⟩,
              .INVESTED, 2⟩]).2 := by
  refine balance_conservation_eights initState "inv1" _ rfl ?_
  intro step hstep
  simp only [List.mem_cons, List.not_mem_nil, or_false] at hstep
  rcases hstep with rfl | rfl
  · exact ⟨⟨rfl, by decide, ⟨"s1", rfl, by decide⟩, rfl,
      by norm_num [stepAmount, coerceAmount, JSNumber.val]⟩,
      ⟨100000000000,
        by norm_num [stepAmount, coerceAmount, JSNumber.val]⟩⟩
  · exact ⟨⟨rfl, by decide, ⟨"s1", rfl, by decide⟩, rfl,
      by norm_num [stepAmount, coerceAmount, JSNumber.val]⟩,
      ⟨50000000000,
        by norm_num [stepAmount, coerceAmount, JSNumber.val]⟩⟩

/-- C7.  Lazy account creation: a valid deposit for an investor with no
existing record behaves exactly as if the account had first been created
with balance `0`, allocation `STABLE` and `lastDecisionAt` at the epoch
start — the amount is then added and the decision step runs on that fresh
account. -/
theorem lazy_account_creation (st : ServerState) (req : DepositRequest)
    (i s : String) (q : ℚ) (d : Allocation) (now : ℕ)
    (hinv : req.investor = some i) (hi : i ≠ "")
    (hstr : req.strategyId = some s) (hs : s ≠ "")
    (hamt : coerceAmount req.amount = .finite q) (hq : 0 < q)
    (h0 : st.investorStates i = none) :
    deposit st req d now
      = deposit { st with investorStates := fun k =>
          if k = i then some ⟨s, 0, .STABLE, 0⟩ else st.investorStates k }
        req d now := by
  rw [deposit_valid st req i s q d now hinv hi hstr hs hamt hq,
    deposit_valid _ req i s q d now hinv hi hstr hs hamt hq]
  have hc1 : currentOf st i s = ⟨s, 0, .STABLE, 0⟩ := by
    unfold currentOf
    rw [h0]
    rfl
  have hc2 : currentOf { st with investorStates := (fun k =>
      if k = i then some ⟨s, 0, .STABLE, 0⟩ else st.investorStates k) } i s
      = ⟨s, 0, .STABLE, 0⟩ := by
    unfold currentOf
    simp
  simp only [applyDeposit, hc1, hc2]
  congr 1
  congr 1
  funext k
  by_cases hk : k = i
  · simp [hk]
  · simp [hk]

/-- Witness for C7: a 1000 deposit for a fresh investor. -/
theorem lazy_account_creation_witness :
    deposit initState
        ⟨some "inv1", some "s1", some (.num (.finite 1000)), none⟩ .INVESTED 1
      = deposit { initState with investorStates := fun k =>
          if k = "inv1" then some ⟨"s1", 0, .STABLE, 0⟩
          else initState.investorStates k }
        ⟨some "inv1", some "s1", some (.num (.finite 1000)), none⟩
        .INVESTED 1 :=
  lazy_account_creation initState
    ⟨some "inv1", some "s1", some (.num (.finite 1000)), none⟩
    "inv1" "s1" 1000 .INVESTED 1 rfl (by decide) rfl (by decide) rfl
    (by norm_num) rfl

/-- C8.  Pause/resume semantics: pausing twice in a row leaves the status
`PAUSED`; resuming an id never-set-before yields status `ACTIVE`; both
operations fail with a validation error and unchanged state when `id` is
missing; and neither operation touches the investor ledger or the platform
fee accumulator. -/
theorem pause_resume_semantics (st : ServerState) (id : String)
    (hid : id ≠ "") :
    statusOf (pauseStrategy (pauseStrategy st (some id)).1 (some id)).1 id
        = .PAUSED ∧
    (st.strategyStatus id = none →
      statusOf (resumeStrategy st (some id)).1 id = .ACTIVE) ∧
    pauseStrategy st none = (st, .validationError) ∧
    resumeStrategy st none = (st, .validationError) ∧
    (pauseStrategy st (some id)).1.investorStates = st.investorStates ∧
    (pauseStrategy st (some id)).1.platformTotalFees = st.platformTotalFees ∧
    (resumeStrategy st (some id)).1.investorStates = st.investorStates ∧
    (resumeStrategy st (some id)).1.platformTotalFees
      = st.platformTotalFees := by
  have hfalse : strFalsy (some id) = false := by simp [strFalsy, hid]
  refine ⟨?_, fun _ => ?_, ?_, ?_, ?_, ?_, ?_, ?_⟩
  · simp [pauseStrategy, hfalse, statusOf]
  · simp [resumeStrategy, hfalse, statusOf]
  · simp [pauseStrategy, strFalsy]
  · simp [resumeStrategy, strFalsy]
  · simp [pauseStrategy, hfalse]
  · simp [pauseStrategy, hfalse]
  · simp [resumeStrategy, hfalse]
  · simp [resumeStrategy, hfalse]

/-- Witness for C8: the strategy id `"s1"` on a fresh server state. -/
theorem pause_resume_semantics_witness :
    statusOf (pauseStrategy (pauseStrategy initState (some "s1")).1
        (some "s1")).1 "s1" = .PAUSED ∧
    (initState.strategyStatus "s1" = none →
      statusOf (resumeStrategy initState (some "s1")).1 "s1" = .ACTIVE) ∧
    pauseStrategy initState none = (initState, .validationError) ∧
    resumeStrategy initState none = (initState, .validationError) ∧
    (pauseStrategy initState (some "s1")).1.investorStates
      = initState.investorStates ∧
    (pauseStrategy initState (some "s1")).1.platformTotalFees
      = initState.platformTotalFees ∧
    (resumeStrategy initState (some "s1")).1.investorStates
      = initState.investorStates ∧
    (resumeStrategy initState (some "s1")).1.platformTotalFees
      = initState.platformTotalFees :=
  pause_resume_semantics initState "s1" (by decide)

/-- C9.  A small deposit onto a large balance with a switching decision
loses more to the 0.5% fee on the whole post-deposit balance than the
deposit added: depositing 1 onto a balance of 10000 returns a `newBalance`
strictly below the balance before the deposit. -/
theorem switch_fee_can_shrink_balance :
    ∃ r, (deposit
        { initState with investorStates := fun k =>
            if k = "inv1" then some ⟨"s1", 10000, .STABLE, 0⟩ else none }
        ⟨some "inv1", some "s1", some (.num (.finite 1)), none⟩
        .INVESTED 7).2 = .ok r ∧
      r.newBalance
        < balanceOf
            { initState with investorStates := fun k =>
                if k = "inv1" then some ⟨"s1", 10000, .STABLE, 0⟩ else none }
            "inv1" := by
  have hdep := deposit_valid
    { initState with investorStates := fun k =>
        if k = "inv1" then some ⟨"s1", 10000, .STABLE, 0⟩ else none }
    ⟨some "inv1", some "s1", some (.num (.finite 1)), none⟩
    "inv1" "s1" 1 .INVESTED 7 rfl (by decide) rfl (by decide) rfl
    (by norm_num)
  have hcur : currentOf
      { initState with investorStates := fun k =>
          if k = "inv1" then some ⟨"s1", 10000, .STABLE, 0⟩ else none }
      "inv1" "s1" = ⟨"s1", 10000, .STABLE, 0⟩ := rfl
  have hsw : (currentOf
      { initState with investorStates := fun k =>
          if k = "inv1" then some ⟨"s1", 10000, .STABLE, 0⟩ else none }
      "inv1" "s1").allocation ≠ .INVESTED := by
    rw [hcur]
    decide
  rw [hdep, applyDeposit_switch _ "inv1" "s1" 1 _ .INVESTED 7 hsw, hcur]
  refine ⟨_, rfl, ?_⟩
  have hbal : balanceOf
      { initState with investorStates := fun k =>
          if k = "inv1" then some ⟨"s1", 10000, .STABLE, 0⟩ else none }
      "inv1" = 10000 := rfl
  rw [hbal]
  norm_num [round8, feeRate]

/-- C10.  `Number()` coercion of the `amount` field: a request whose amount
is the numeric string `"100"` passes validation and is treated as the
number 100, while a request with the amount absent is coerced to `0` and
rejected with a validation error. -/
theorem amount_string_coercion :
    (∃ r, (deposit initState
        ⟨some "inv1", some "s1", some (.str "100"), none⟩ .STABLE 3).2
          = .ok r ∧ r.newBalance = 100 ∧ r.feeCharged = 0) ∧
    deposit initState ⟨some "inv1", some "s1", none, none⟩ .STABLE 3
      = (initState, .validationError) := by
  constructor
  · have hamt : coerceAmount (some (JSValue.str "100")) = .finite 100 := by
      show jsStringToNumber "100" = .finite 100
      rw [jsStringToNumber,
        (by decide : parseDecimal "100" = some (false, 100, 0))]
      norm_num
    have hdep := deposit_valid initState
      ⟨some "inv1", some "s1", some (.str "100"), none⟩
      "inv1" "s1" 100 .STABLE 3 rfl (by decide) rfl (by decide) hamt
      (by norm_num)
    have hcur : currentOf initState "inv1" "s1" = ⟨"s1", 0, .STABLE, 0⟩ := rfl
    have hsame : (currentOf initState "inv1" "s1").allocation = .STABLE := by
      rw [hcur]
    rw [hdep, applyDeposit_same initState "inv1" "s1" 100 _ .STABLE 3 hsame]
    refine ⟨_, rfl, ?_, rfl⟩
    show (currentOf initState "inv1" "s1").balance + 100 = 100
    rw [hcur]
    norm_num
  · refine deposit_invalid initState _ .STABLE 3 ?_
    have hd : decide ((0 : ℚ) ≤ 0) = true := decide_eq_true (le_refl (0 : ℚ))
    simp [strFalsy, coerceAmount, JSNumber.val, hd]

end Stellar
